import Mathlib

/-!
Verification of the Inventory Management System (`inventory_system.py`).

The Python `Inventory` class owns `stock_data : Dict[str, int]`, modelled
here as an association list `StockMap := List (String × Int)` with unique
keys (the `WF` predicate), in insertion order, as Python dicts behave.
File I/O for `save_data`/`load_data` is modelled by enumerating the
outcomes of the interaction with the filesystem (`WriteOutcome`,
`ReadOutcome`); exceptions that escape a method are modelled with
`Except`.
-/

/-- The in-memory `stock_data` dictionary: item name to quantity. -/
abbrev StockMap := List (String × Int)

/-- Dictionary lookup: the value stored at `item`, if present.
Keys of a Python dict are unique, so the first match is the match. -/
def findVal : StockMap → String → Option Int
  | [], _ => none
  | (k, v) :: rest, item => if k = item then some v else findVal rest item

/-- `self.stock_data.get(item, 0)` — also the body of `Inventory.get_qty`:
the stored quantity, or 0 if the item is absent. -/
def get_qty (m : StockMap) (item : String) : Int :=
  (findVal m item).getD 0

/-- Python dict assignment `d[k] = v`: overwrite in place if the key is
present (keeping its position), else append the new entry at the end. -/
def dictSet : StockMap → String → Int → StockMap
  | [], k, v => [(k, v)]
  | (k', v') :: rest, k, v =>
    if k' = k then (k, v) :: rest else (k', v') :: dictSet rest k v

/-- Python `del d[k]`: drop the entry whose key is `k`. -/
def dictDel : StockMap → String → StockMap
  | [], _ => []
  | (k', v') :: rest, k =>
    if k' = k then rest else (k', v') :: dictDel rest k

/-- `Inventory.add_item`: a negative quantity is rejected (logged, no state
change); otherwise `stock_data[item] = stock_data.get(item, 0) + qty`.
The `isinstance` guards never fire here because the embedding is typed. -/
def add_item (m : StockMap) (item : String) (qty : Int) : StockMap :=
  if qty < 0 then m
  else dictSet m item (get_qty m item + qty)

/-- `Inventory.remove_item`: rejects an absent item, then a negative
quantity (logged no-ops); otherwise `stock_data[item] -= qty`, and if the
updated quantity is `≤ 0` the entry is deleted with `del`. -/
def remove_item (m : StockMap) (item : String) (qty : Int) : StockMap :=
  if findVal m item = none then m
  else if qty < 0 then m
  else
    let m' := dictSet m item (get_qty m item - qty)
    if get_qty m' item ≤ 0 then dictDel m' item else m'

/-- `Inventory.check_low_items`: the list comprehension
`[item for item, qty in self.stock_data.items() if qty < threshold]`.
The Python parameter defaults to `threshold = 5`; the call reads the map
and does not mutate it, so it is a pure function here. -/
def check_low_items (m : StockMap) (threshold : Int) : List String :=
  (m.filter (fun p => p.2 < threshold)).map Prod.fst

/-- The key invariant of a Python dict: no two entries share a key. -/
def WF (m : StockMap) : Prop := (m.map Prod.fst).Nodup

/-- One external call on the inventory that can mutate the stock map. -/
inductive Op where
  | add (item : String) (qty : Int)
  | remove (item : String) (qty : Int)

/-- Dispatch one call. -/
def applyOp (m : StockMap) : Op → StockMap
  | .add item qty => add_item m item qty
  | .remove item qty => remove_item m item qty

/-- The stock map reached by a sequence of `add_item`/`remove_item` calls
starting from the empty map a fresh `Inventory` begins with. -/
def run (ops : List Op) : StockMap :=
  ops.foldl applyOp []

/-! ## The JSON file model -/

/-- A JSON document as `json.load` decodes it / `json.dump` writes it
(numbers restricted to the integers this program stores). -/
inductive Json where
  | null
  | bool (b : Bool)
  | num (n : Int)
  | str (s : String)
  | arr (elems : List Json)
  | obj (fields : List (String × Json))

/-- The decoded form of an empty Python dict `{}`. -/
def emptyJson : Json := Json.obj []

/-- The JSON object fields `json.dump` writes for a stock map. -/
def saveFields (m : StockMap) : List (String × Json) :=
  m.map (fun p => (p.1, Json.num p.2))

/-- The JSON document `json.dump(self.stock_data, file, indent=4)`
serializes. -/
def saveJson (m : StockMap) : Json := Json.obj (saveFields m)

/-- Reading a JSON value back as a stored integer quantity. -/
def jsonToInt : Json → Option Int
  | Json.num n => some n
  | _ => none

/-- Reading JSON object fields back as a stock map. -/
def decodeFields : List (String × Json) → Option StockMap
  | [] => some []
  | (k, v) :: rest =>
    match jsonToInt v, decodeFields rest with
    | some n, some m => some ((k, n) :: m)
    | _, _ => none

/-- Reading a JSON document as a stock map: a top-level object all of
whose values are numbers, and nothing else. -/
def jsonToStock : Json → Option StockMap
  | Json.obj fields => decodeFields fields
  | _ => none

/-- An exception a file operation can let escape to the caller. -/
inductive PyExn where
  | osError

/-- Outcome of the filesystem interaction inside `save_data`:
`json.dump` to the opened file either succeeds or raises an `OSError`. -/
inductive WriteOutcome where
  | success
  | osFailure

/-- Outcome of the filesystem interaction inside `load_data`: `open` can
raise `FileNotFoundError` (`missing`) or another `OSError` such as
`PermissionError` (`osFailure`); a successful read feeds `json.load`,
which either raises `JSONDecodeError` (`malformed`) or returns a decoded
JSON value (`parsed j`). -/
inductive ReadOutcome where
  | missing
  | osFailure
  | malformed
  | parsed (j : Json)

/-- `Inventory.save_data`: on success the serialized map is written to the
file; an `OSError` is caught and logged. The result is the in-memory map
after the call paired with the file content written, if any; `Except`
records whether an exception escaped. -/
def save_data (m : StockMap) : WriteOutcome → Except PyExn (StockMap × Option Json)
  | .success => .ok (m, some (saveJson m))
  | .osFailure => .ok (m, none)

/-- `Inventory.load_data`: `except FileNotFoundError` and
`except json.JSONDecodeError` each reset `stock_data` to `{}`; a
successfully parsed value is assigned to `stock_data` as-is; any other
exception (e.g. `PermissionError` from `open`) is uncaught. The result is
the in-memory value of `stock_data` after the call, or the escaped
exception. -/
def load_data : ReadOutcome → Except PyExn Json
  | .missing => .ok emptyJson
  | .osFailure => .error .osError
  | .malformed => .ok emptyJson
  | .parsed j => .ok j

/-- The spec's claimed invariant: every entry's quantity is strictly
positive. -/
def posInv (m : StockMap) : Prop := ∀ p ∈ m, 0 < p.2

/-- The invariant the code actually maintains: every entry's quantity is
nonnegative. -/
def nonnegInv (m : StockMap) : Prop := ∀ p ∈ m, 0 ≤ p.2

/-! ## Helper lemmas about the dictionary operations -/

theorem findVal_dictSet_self (m : StockMap) (k : String) (v : Int) :
    findVal (dictSet m k v) k = some v := by
  induction m with
  | nil => simp [dictSet, findVal]
  | cons p rest ih =>
    obtain ⟨k', v'⟩ := p
    by_cases h : k' = k <;> simp [dictSet, findVal, h, ih]

theorem findVal_dictSet_ne (m : StockMap) (k k' : String) (v : Int)
    (h : k' ≠ k) : findVal (dictSet m k v) k' = findVal m k' := by
  have hks : ¬ k = k' := fun h' => h h'.symm
  induction m with
  | nil => simp [dictSet, findVal, hks]
  | cons p rest ih =>
    obtain ⟨k₀, v₀⟩ := p
    by_cases h₀ : k₀ = k
    · subst h₀
      simp [dictSet, findVal, hks]
    · by_cases h₁ : k₀ = k'
      · subst h₁
        simp [dictSet, findVal, h₀]
      · simp [dictSet, findVal, h₀, h₁, ih]

theorem mem_dictSet (m : StockMap) (k : String) (v : Int) (p : String × Int)
    (hp : p ∈ dictSet m k v) : p = (k, v) ∨ p ∈ m := by
  induction m with
  | nil => simpa [dictSet] using hp
  | cons q rest ih =>
    obtain ⟨k₀, v₀⟩ := q
    by_cases h₀ : k₀ = k
    · simp only [dictSet, if_pos h₀, List.mem_cons] at hp
      rcases hp with hp | hp
      · exact Or.inl hp
      · exact Or.inr (List.mem_cons_of_mem _ hp)
    · simp only [dictSet, if_neg h₀, List.mem_cons] at hp
      rcases hp with hp | hp
      · exact Or.inr (by simp [hp])
      · rcases ih hp with hp | hp
        · exact Or.inl hp
        · exact Or.inr (List.mem_cons_of_mem _ hp)

theorem mem_dictDel (m : StockMap) (k : String) (p : String × Int)
    (hp : p ∈ dictDel m k) : p ∈ m := by
  induction m with
  | nil => simp [dictDel] at hp
  | cons q rest ih =>
    obtain ⟨k₀, v₀⟩ := q
    by_cases h₀ : k₀ = k
    · simp only [dictDel, if_pos h₀] at hp
      exact List.mem_cons_of_mem _ hp
    · simp only [dictDel, if_neg h₀, List.mem_cons] at hp
      rcases hp with hp | hp
      · simp [hp]
      · exact List.mem_cons_of_mem _ (ih hp)

theorem keys_dictSet (m : StockMap) (k : String) (v : Int) (k' : String)
    (h : k' ∈ (dictSet m k v).map Prod.fst) :
    k' = k ∨ k' ∈ m.map Prod.fst := by
  rcases List.mem_map.1 h with ⟨p, hp, hk⟩
  rcases mem_dictSet m k v p hp with hp' | hp'
  · left
    rw [← hk, hp']
  · right
    rw [← hk]
    exact List.mem_map_of_mem Prod.fst hp'

theorem WF_dictSet (m : StockMap) (k : String) (v : Int) (hm : WF m) :
    WF (dictSet m k v) := by
  induction m with
  | nil => simp [WF, dictSet]
  | cons q rest ih =>
    obtain ⟨k₀, v₀⟩ := q
    simp only [WF, List.map_cons, List.nodup_cons] at hm
    by_cases h₀ : k₀ = k
    · subst h₀
      simpa [WF, dictSet, List.nodup_cons] using hm
    · have hrest := ih hm.2
      simp only [WF, dictSet, if_neg h₀, List.map_cons, List.nodup_cons]
      refine ⟨fun hmem => ?_, hrest⟩
      rcases keys_dictSet rest k v k₀ hmem with h | h
      · exact h₀ h
      · exact hm.1 h

theorem keys_dictDel (m : StockMap) (k : String) (k' : String)
    (h : k' ∈ (dictDel m k).map Prod.fst) : k' ∈ m.map Prod.fst := by
  rcases List.mem_map.1 h with ⟨p, hp, hk⟩
  exact hk ▸ List.mem_map_of_mem Prod.fst (mem_dictDel m k p hp)

theorem WF_dictDel (m : StockMap) (k : String) (hm : WF m) :
    WF (dictDel m k) := by
  induction m with
  | nil => simp [WF, dictDel]
  | cons q rest ih =>
    obtain ⟨k₀, v₀⟩ := q
    simp only [WF, List.map_cons, List.nodup_cons] at hm
    by_cases h₀ : k₀ = k
    · simpa [WF, dictDel, h₀] using hm.2
    · have hrest := ih hm.2
      simp only [WF, dictDel, if_neg h₀, List.map_cons, List.nodup_cons]
      exact ⟨fun hmem => hm.1 (keys_dictDel rest k k₀ hmem), hrest⟩

theorem findVal_eq_none_iff (m : StockMap) (item : String) :
    findVal m item = none ↔ item ∉ m.map Prod.fst := by
  induction m with
  | nil => simp [findVal]
  | cons q rest ih =>
    obtain ⟨k₀, v₀⟩ := q
    by_cases h₀ : k₀ = item <;> simp [findVal, h₀, ih, Ne.symm]

theorem mem_of_findVal (m : StockMap) (item : String) (v : Int)
    (h : findVal m item = some v) : (item, v) ∈ m := by
  induction m with
  | nil => simp [findVal] at h
  | cons q rest ih =>
    obtain ⟨k₀, v₀⟩ := q
    by_cases h₀ : k₀ = item
    · subst h₀
      rw [findVal, if_pos rfl] at h
      injection h with h
      subst h
      exact List.mem_cons_self _ _
    · simp only [findVal, if_neg h₀] at h
      exact List.mem_cons_of_mem _ (ih h)

theorem findVal_of_mem (m : StockMap) (item : String) (v : Int) (hm : WF m)
    (h : (item, v) ∈ m) : findVal m item = some v := by
  induction m with
  | nil => simp at h
  | cons q rest ih =>
    obtain ⟨k₀, v₀⟩ := q
    simp only [WF, List.map_cons, List.nodup_cons] at hm
    rcases List.mem_cons.1 h with h | h
    · rw [← h]
      simp [findVal]
    · have hne : k₀ ≠ item := by
        rintro rfl
        exact hm.1 (List.mem_map_of_mem Prod.fst h)
      simp only [findVal, if_neg hne]
      exact ih hm.2 h

theorem findVal_dictDel_self (m : StockMap) (k : String) (hm : WF m) :
    findVal (dictDel m k) k = none := by
  induction m with
  | nil => simp [dictDel, findVal]
  | cons q rest ih =>
    obtain ⟨k₀, v₀⟩ := q
    simp only [WF, List.map_cons, List.nodup_cons] at hm
    by_cases h₀ : k₀ = k
    · subst h₀
      simp only [dictDel, if_pos rfl]
      exact (findVal_eq_none_iff rest k₀).2 hm.1
    · simp only [dictDel, if_neg h₀, findVal, if_neg h₀]
      exact ih hm.2


/-- The two facts every reachable stock map satisfies: unique keys and
nonnegative quantities. -/
def StockInv (m : StockMap) : Prop := WF m ∧ nonnegInv m

theorem get_qty_nonneg_of_nonnegInv (m : StockMap) (hm : nonnegInv m)
    (item : String) : 0 ≤ get_qty m item := by
  unfold get_qty
  cases h : findVal m item with
  | none => simp
  | some v => simpa using hm _ (mem_of_findVal m item v h)

theorem StockInv_add_item (m : StockMap) (item : String) (qty : Int)
    (hm : StockInv m) : StockInv (add_item m item qty) := by
  unfold add_item
  by_cases hq : qty < 0
  · simpa [hq] using hm
  · simp only [if_neg hq]
    refine ⟨WF_dictSet _ _ _ hm.1, ?_⟩
    intro p hp
    rcases mem_dictSet _ _ _ p hp with hp' | hp'
    · rw [hp']
      have h₁ := get_qty_nonneg_of_nonnegInv m hm.2 item
      have h₂ : 0 ≤ qty := Int.not_lt.1 hq
      simpa using add_nonneg h₁ h₂
    · exact hm.2 p hp'

theorem StockInv_remove_item (m : StockMap) (item : String) (qty : Int)
    (hm : StockInv m) : StockInv (remove_item m item qty) := by
  unfold remove_item
  by_cases h : findVal m item = none
  · simpa [h] using hm
  · by_cases hq : qty < 0
    · simpa [h, hq] using hm
    · simp only [if_neg h, if_neg hq]
      have hm' : WF (dictSet m item (get_qty m item - qty)) :=
        WF_dictSet _ _ _ hm.1
      by_cases hle : get_qty (dictSet m item (get_qty m item - qty)) item ≤ 0
      · simp only [if_pos hle]
        refine ⟨WF_dictDel _ _ hm', ?_⟩
        have hnone := findVal_dictDel_self (dictSet m item (get_qty m item - qty)) item hm'
        have hkeys := (findVal_eq_none_iff _ item).1 hnone
        intro p hp
        rcases mem_dictSet m item _ p (mem_dictDel _ _ p hp) with hp' | hp'
        · exfalso
          apply hkeys
          rw [hp'] at hp
          exact List.mem_map_of_mem Prod.fst hp
        · exact hm.2 p hp'
      · simp only [if_neg hle]
        refine ⟨hm', ?_⟩
        intro p hp
        rcases mem_dictSet m item _ p hp with hp' | hp'
        · rw [hp']
          have : get_qty (dictSet m item (get_qty m item - qty)) item
              = get_qty m item - qty := by
            simp [get_qty, findVal_dictSet_self]
          rw [this] at hle
          exact le_of_lt (Int.not_le.1 hle)
        · exact hm.2 p hp'

theorem StockInv_applyOp (m : StockMap) (op : Op) (hm : StockInv m) :
    StockInv (applyOp m op) := by
  cases op with
  | add item qty => exact StockInv_add_item m item qty hm
  | remove item qty => exact StockInv_remove_item m item qty hm

theorem StockInv_foldl (ops : List Op) :
    ∀ m : StockMap, StockInv m → StockInv (List.foldl applyOp m ops) := by
  induction ops with
  | nil => intro m hm; simpa using hm
  | cons op rest ih =>
    intro m hm
    simp only [List.foldl_cons]
    exact ih _ (StockInv_applyOp m op hm)

theorem StockInv_empty : StockInv ([] : StockMap) :=
  ⟨List.nodup_nil, by intro p hp; simp at hp⟩

theorem StockInv_run (ops : List Op) : StockInv (run ops) :=
  StockInv_foldl ops [] StockInv_empty

theorem decodeFields_saveFields (m : StockMap) :
    decodeFields (saveFields m) = some m := by
  induction m with
  | nil => rfl
  | cons p rest ih =>
    obtain ⟨k, v⟩ := p
    simp only [saveFields, List.map_cons] at ih ⊢
    simp [decodeFields, jsonToInt, ih]

theorem mem_check_low_items (m : StockMap) (t : Int) (item : String)
    (hm : WF m) :
    item ∈ check_low_items m t ↔ ∃ q, findVal m item = some q ∧ q < t := by
  unfold check_low_items
  constructor
  · intro h
    rcases List.mem_map.1 h with ⟨p, hp, hk⟩
    rcases List.mem_filter.1 hp with ⟨hpm, hpt⟩
    refine ⟨p.2, ?_, by simpa using hpt⟩
    rw [← hk]
    exact findVal_of_mem m p.1 p.2 hm hpm
  · rintro ⟨q, hq, hqt⟩
    have hmem := mem_of_findVal m item q hq
    exact List.mem_map.2 ⟨(item, q), List.mem_filter.2 ⟨hmem, by simpa⟩, rfl⟩

theorem check_low_items_subset_keys (m : StockMap) (t : Int) (item : String)
    (h : item ∈ check_low_items m t) : item ∈ m.map Prod.fst := by
  rcases List.mem_map.1 h with ⟨p, hp, hk⟩
  exact hk ▸ List.mem_map_of_mem Prod.fst (List.mem_filter.1 hp).1

theorem keys_saveFields (m : StockMap) :
    (saveFields m).map Prod.fst = m.map Prod.fst := by
  induction m with
  | nil => rfl
  | cons p rest ih => simp [saveFields] at ih ⊢

theorem WF_single (k : String) (v : Int) : WF [(k, v)] := by
  simp [WF]

theorem get_qty_dictSet_self (m : StockMap) (k : String) (v : Int) :
    get_qty (dictSet m k v) k = v := by
  simp [get_qty, findVal_dictSet_self]

theorem findVal_remove_item_del (m : StockMap) (item : String)
    (qty old : Int) (hm : WF m) (h : findVal m item = some old)
    (hq : 0 ≤ qty) (hle : old - qty ≤ 0) :
    findVal (remove_item m item qty) item = none := by
  have hg : get_qty m item = old := by simp [get_qty, h]
  have hsome : ¬ findVal m item = none := by simp [h]
  have hcond : get_qty (dictSet m item (get_qty m item - qty)) item ≤ 0 := by
    rw [get_qty_dictSet_self, hg]
    exact hle
  simp only [remove_item, if_neg hsome, if_neg (Int.not_lt.2 hq), if_pos hcond]
  exact findVal_dictDel_self _ item (WF_dictSet _ _ _ hm)

theorem findVal_remove_item_keep (m : StockMap) (item : String)
    (qty old : Int) (h : findVal m item = some old)
    (hq : 0 ≤ qty) (hgt : 0 < old - qty) :
    findVal (remove_item m item qty) item = some (old - qty) := by
  have hg : get_qty m item = old := by simp [get_qty, h]
  have hsome : ¬ findVal m item = none := by simp [h]
  have hcond : ¬ get_qty (dictSet m item (get_qty m item - qty)) item ≤ 0 := by
    rw [get_qty_dictSet_self, hg]
    exact Int.not_le.2 hgt
  simp only [remove_item, if_neg hsome, if_neg (Int.not_lt.2 hq), if_neg hcond]
  rw [findVal_dictSet_self, hg]

/-! ## Claim theorems -/

/-- C1 counterexample: the claimed invariant "every entry has strictly
positive quantity after any mutation" fails: from the empty map, the
single call `add_item("x", 0)` is accepted (0 is not negative) and creates
the entry `("x", 0)`, whose quantity is not strictly positive. -/
theorem C1_counterexample : ¬ posInv (run [Op.add "x" 0]) := by
  intro h
  have hmem : ("x", (0 : Int)) ∈ run [Op.add "x" 0] := by decide
  exact lt_irrefl 0 (h _ hmem)

/-- C1 (amended): for every reachable state produced by a sequence of
`add_item`/`remove_item` calls starting from the empty map, every item
present in the map has a nonnegative quantity (an `add_item` call with
quantity 0 may create an entry whose quantity is exactly 0, so strict
positivity does not hold). -/
theorem C1_reachable_nonneg (ops : List Op) (p : String × Int)
    (hp : p ∈ run ops) : 0 ≤ p.2 :=
  (StockInv_run ops).2 p hp

/-- C1 witness. -/
theorem C1_reachable_nonneg_witness :
    ("x", (3 : Int)) ∈ run [Op.add "x" 3] ∧
    (0 : Int) ≤ ("x", (3 : Int)).2 :=
  ⟨by decide, C1_reachable_nonneg [Op.add "x" 3] ("x", 3) (by decide)⟩

/-- C2: `add_item` with a negative quantity leaves the map completely
unchanged; with a nonnegative quantity it sets the stored quantity of
`item` to its previous stored quantity (0 if absent) plus `qty` and
changes no other entry; in particular `add("x", 10)` from a state where
`"x"` is absent gives `quantity_of("x") = 10` and a subsequent
`add("x", 5)` gives 15. -/
theorem C2_add_item_spec :
    (∀ (m : StockMap) (item : String) (qty : Int),
      (qty < 0 → add_item m item qty = m) ∧
      (0 ≤ qty →
        get_qty (add_item m item qty) item = get_qty m item + qty ∧
        ∀ k, k ≠ item → get_qty (add_item m item qty) k = get_qty m k)) ∧
    get_qty (add_item [] "x" 10) "x" = 10 ∧
    get_qty (add_item (add_item [] "x" 10) "x" 5) "x" = 15 := by
  refine ⟨?_, by decide, by decide⟩
  intro m item qty
  refine ⟨fun hq => by simp [add_item, hq], fun hq => ⟨?_, ?_⟩⟩
  · simp [add_item, Int.not_lt.2 hq, get_qty, findVal_dictSet_self]
  · intro k hk
    simp [add_item, Int.not_lt.2 hq, get_qty,
      findVal_dictSet_ne m item k _ hk]

/-- C2 witness. -/
theorem C2_add_item_spec_witness :
    add_item [("a", 2)] "x" (-1) = [("a", 2)] ∧
    get_qty (add_item [("a", 2)] "x" 10) "x"
      = get_qty [("a", 2)] "x" + 10 :=
  ⟨(C2_add_item_spec.1 [("a", 2)] "x" (-1)).1 (by decide),
    ((C2_add_item_spec.1 [("a", 2)] "x" 10).2 (by decide)).1⟩

/-- C3: `remove_item` is a no-op on the map when the item is absent or
when `qty < 0`; otherwise it decrements the stored quantity, deleting the
entry entirely whenever the result is `≤ 0` (never keeping it at zero);
in particular removing 20 from a stored quantity of 15 deletes the entry
and `quantity_of` then returns 0. -/
theorem C3_remove_item_spec :
    (∀ (m : StockMap) (item : String) (qty : Int),
      (findVal m item = none → remove_item m item qty = m) ∧
      (qty < 0 → remove_item m item qty = m) ∧
      (∀ old, WF m → findVal m item = some old → 0 ≤ qty →
        (old - qty ≤ 0 → findVal (remove_item m item qty) item = none) ∧
        (0 < old - qty →
          findVal (remove_item m item qty) item = some (old - qty)))) ∧
    findVal (remove_item [("x", 15)] "x" 20) "x" = none ∧
    get_qty (remove_item [("x", 15)] "x" 20) "x" = 0 := by
  refine ⟨?_, by decide, by decide⟩
  intro m item qty
  refine ⟨fun h => by simp [remove_item, h], ?_, ?_⟩
  · intro hq
    by_cases h : findVal m item = none <;> simp [remove_item, h, hq]
  · intro old hm h hq
    exact ⟨findVal_remove_item_del m item qty old hm h hq,
      findVal_remove_item_keep m item qty old h hq⟩

/-- C3 witness. -/
theorem C3_remove_item_spec_witness :
    remove_item [("a", 2)] "x" 5 = [("a", 2)] ∧
    remove_item [("x", 15)] "x" (-1) = [("x", 15)] ∧
    findVal (remove_item [("x", 15)] "x" 20) "x" = none :=
  ⟨(C3_remove_item_spec.1 [("a", 2)] "x" 5).1 (by decide),
    (C3_remove_item_spec.1 [("x", 15)] "x" (-1)).2.1 (by decide),
    ((C3_remove_item_spec.1 [("x", 15)] "x" 20).2.2 15 (WF_single "x" 15)
      (by decide) (by decide)).1 (by decide)⟩

/-- C4: over every sequence of `add_item`/`remove_item` calls from the
empty map, `get_qty` never returns a negative value; and whenever a
`remove_item` call drives an item's quantity to `≤ 0` (item present with
quantity `old`, `0 ≤ qty`, `old - qty ≤ 0`), the item is absent from the
resulting map's `check_low_items` output for every threshold and from the
object fields `save_data` would serialize from that map. -/
theorem C4_nonneg_and_driven_absent :
    (∀ (ops : List Op) (item : String), 0 ≤ get_qty (run ops) item) ∧
    (∀ (m : StockMap) (item : String) (qty old : Int), WF m →
      findVal m item = some old → 0 ≤ qty → old - qty ≤ 0 →
      (∀ t, item ∉ check_low_items (remove_item m item qty) t) ∧
      item ∉ (saveFields (remove_item m item qty)).map Prod.fst) := by
  constructor
  · intro ops item
    exact get_qty_nonneg_of_nonnegInv _ (StockInv_run ops).2 item
  · intro m item qty old hm h hq hle
    have hnone := findVal_remove_item_del m item qty old hm h hq hle
    have hkeys := (findVal_eq_none_iff _ item).1 hnone
    constructor
    · intro t ht
      exact hkeys (check_low_items_subset_keys _ t item ht)
    · rw [keys_saveFields]
      exact hkeys

/-- C4 witness. -/
theorem C4_nonneg_and_driven_absent_witness :
    (0 : Int) ≤ get_qty (run [Op.add "x" 3, Op.remove "x" 3]) "x" ∧
    "x" ∉ check_low_items (remove_item [("x", 15)] "x" 20) 5 :=
  ⟨C4_nonneg_and_driven_absent.1 [Op.add "x" 3, Op.remove "x" 3] "x",
    (C4_nonneg_and_driven_absent.2 [("x", 15)] "x" 20 15 (WF_single "x" 15)
      (by decide) (by decide) (by decide)).1 5⟩

/-- C5: for every map with the dict key-uniqueness property and every
threshold, `check_low_items` returns exactly the item names stored with a
quantity strictly below the threshold (the call reads the map and returns
a fresh list, so it is modelled as a pure function and cannot change the
map); in particular after `add("apple", 3)` the report at threshold 5 is
`["apple"]`, and after a further `add("apple", 10)` it is `[]`. -/
theorem C5_check_low_items_spec :
    (∀ (m : StockMap) (t : Int) (item : String), WF m →
      (item ∈ check_low_items m t ↔
        ∃ q, findVal m item = some q ∧ q < t)) ∧
    check_low_items (add_item [] "apple" 3) 5 = ["apple"] ∧
    check_low_items (add_item (add_item [] "apple" 3) "apple" 10) 5 = [] := by
  refine ⟨?_, by decide, by decide⟩
  intro m t item hm
  exact mem_check_low_items m t item hm

/-- C5 witness. -/
theorem C5_check_low_items_spec_witness :
    "apple" ∈ check_low_items [("apple", 3)] 5 ↔
      ∃ q, findVal [("apple", 3)] "apple" = some q ∧ q < 5 :=
  C5_check_low_items_spec.1 [("apple", 3)] 5 "apple" (WF_single "apple" 3)

/-- C6: round-trip persistence: for every stock map, a successful
`save_data` writes `saveJson m` to the file, a fresh `load_data` that
parses that unchanged content installs it without error, and read back as
a mapping it is exactly the map that was saved. -/
theorem C6_round_trip (m : StockMap) :
    save_data m WriteOutcome.success = Except.ok (m, some (saveJson m)) ∧
    load_data (ReadOutcome.parsed (saveJson m)) = Except.ok (saveJson m) ∧
    jsonToStock (saveJson m) = some m := by
  refine ⟨rfl, rfl, ?_⟩
  simp [jsonToStock, saveJson, decodeFields_saveFields]

/-- C7: `load_data` recovers locally on both bad-file cases: a missing
backing file resets the map to empty, and a malformed-JSON file resets
the map to empty; in both cases the call returns normally (no exception
reaches the caller). -/
theorem C7_load_recovers :
    load_data ReadOutcome.missing = Except.ok emptyJson ∧
    load_data ReadOutcome.malformed = Except.ok emptyJson :=
  ⟨rfl, rfl⟩

/-- C8 counterexample: `load_data` does not catch every error: an I/O
failure other than a missing file (e.g. `PermissionError` raised by
`open`, which is an `OSError` but not a `FileNotFoundError`) matches
neither `except FileNotFoundError` nor `except json.JSONDecodeError`, so
the exception propagates to the caller. -/
theorem C8_counterexample :
    load_data ReadOutcome.osFailure = Except.error PyExn.osError := rfl

/-- C8 (amended): `load_data` returns normally on a missing file, on
malformed JSON, and on any successfully parsed content, but an I/O
failure other than a missing file (such as a permission error) escapes
to the caller as an exception. -/
theorem C8_load_exception_behavior :
    load_data ReadOutcome.missing = Except.ok emptyJson ∧
    load_data ReadOutcome.malformed = Except.ok emptyJson ∧
    (∀ j, load_data (ReadOutcome.parsed j) = Except.ok j) ∧
    load_data ReadOutcome.osFailure = Except.error PyExn.osError :=
  ⟨rfl, rfl, fun _ => rfl, rfl⟩

/-- C9: `save_data` never modifies the in-memory map: whether the file
write succeeds or fails with an `OSError`, the call returns normally
(the failure is caught and only logged) and the map component of the
result is exactly the map before the call. -/
theorem C9_save_preserves_map (m : StockMap) :
    save_data m WriteOutcome.success = Except.ok (m, some (saveJson m)) ∧
    save_data m WriteOutcome.osFailure = Except.ok (m, none) :=
  ⟨rfl, rfl⟩

/-- C10: `load_data` performs no shape validation on successfully parsed
content: any decoded JSON value is installed as `stock_data` as-is — for
example a JSON array, which is not the empty object and not readable as a
stock map — and only the missing-file and parse-error cases reset the map
to empty. -/
theorem C10_load_no_validation :
    (∀ j, load_data (ReadOutcome.parsed j) = Except.ok j) ∧
    load_data (ReadOutcome.parsed (Json.arr [Json.num 1]))
      = Except.ok (Json.arr [Json.num 1]) ∧
    Json.arr [Json.num 1] ≠ emptyJson ∧
    jsonToStock (Json.arr [Json.num 1]) = none ∧
    load_data ReadOutcome.missing = Except.ok emptyJson ∧
    load_data ReadOutcome.malformed = Except.ok emptyJson := by
  refine ⟨fun _ => rfl, rfl, ?_, rfl, rfl, rfl⟩
  intro h
  exact Json.noConfusion h
